import Mathlib

/-!
Shallow embedding of process_EELS.py (classes Line, Lines, Mapping) in Lean 4.

Machine floats are modelled as rationals; numpy arrays as lists of rationals.
The cubic-spline construction (scipy UnivariateSpline) and the PCA / find_peaks
numerics are opaque numerical routines; they are abstracted as explicit function
parameters, so every theorem quantifies over them.  All control flow, indexing,
slicing and list bookkeeping is translated directly from the source.
-/

set_option autoImplicit false

namespace EELS

/-- Minimum of a list of rationals (Python min; the value 0 on the empty
list is junk — Python raises there and all uses below are on nonempty lists). -/
def listMin : List ℚ → ℚ
  | [] => 0
  | [x] => x
  | x :: y :: rest => min x (listMin (y :: rest))

/-- Maximum of a list of rationals (Python max; junk 0 on the empty list). -/
def listMax : List ℚ → ℚ
  | [] => 0
  | [x] => x
  | x :: y :: rest => max x (listMax (y :: rest))

/-- Index of the first occurrence of the maximum value (numpy argmax). -/
def argmaxIdx : List ℚ → Nat
  | [] => 0
  | [_] => 0
  | x :: y :: rest => if listMax (y :: rest) ≤ x then 0 else argmaxIdx (y :: rest) + 1

/-- numpy.linspace a b num: num evenly spaced samples from a to b inclusive. -/
def linspace (a b : ℚ) (num : Nat) : List ℚ :=
  if num = 0 then []
  else if num = 1 then [a]
  else (List.range num).map (fun i => a + i * (b - a) / ((num : ℚ) - 1))

/-- A spline constructor: from sampled data (x values, y values) to an
interpolating function ℚ → ℚ.  Abstracts scipy.interpolate.UnivariateSpline
with s=0, k=3 as built by Line.spline. -/
def Spl : Type := List ℚ → List ℚ → ℚ → ℚ

/-- The Line class: data[0] is x, data[1] is y, plus name and height fields. -/
structure Line where
  x : List ℚ
  y : List ℚ
  name : String
  height : ℚ
deriving DecidableEq

namespace Line

/-- Replace the data field (Python: self.data = d). -/
def setData (l : Line) (d : List ℚ × List ℚ) : Line :=
  { l with x := d.1, y := d.2 }

/-- Line.slice_data: keep exactly the samples whose x lies in
[min xrange, max xrange]; y values are kept by the index of their x partner. -/
def slice_data (l : Line) (xr : ℚ × ℚ) : List ℚ × List ℚ :=
  let lo := min xr.1 xr.2
  let hi := max xr.1 xr.2
  let ps := (l.x.zip l.y).filter (fun p => decide (lo ≤ p.1 ∧ p.1 ≤ hi))
  (ps.map Prod.fst, ps.map Prod.snd)

/-- Line.get_HWHM: half_max = max(y)/2; indx = indices with y above half_max;
returns abs(x[indx][-1] - x[indx][0]) — the span between the first and the
last sample above half maximum. -/
def get_HWHM (l : Line) : ℚ :=
  let half := listMax l.y / 2
  let xs := ((l.x.zip l.y).filter (fun p => decide (half < p.2))).map Prod.fst
  |xs.getLastD 0 - xs.headD 0|

/-- Line.get_linspace with the default num = 2000 (step left at its 0 default). -/
def get_linspace (xr : ℚ × ℚ) : List ℚ :=
  linspace (min xr.1 xr.2) (max xr.1 xr.2) 2000

/-- Pass 1 of find_zlp_max: dense sampling of the spline over the full
x-domain; the coarse ZLP position is the sample at the argmax. -/
def coarsePeak (spl : Spl) (l : Line) : ℚ :=
  let f := spl l.x l.y
  let xs := get_linspace (listMin l.x, listMax l.x)
  xs.getD (argmaxIdx (xs.map f)) 0

/-- The pass-2 refinement window of find_zlp_max:
zlp_xrange = [test_shift - width/2 * 3, test_shift + width/2 * 3]
with width = get_HWHM. -/
def zlpWindow (spl : Spl) (l : Line) : ℚ × ℚ :=
  let t := coarsePeak spl l
  let w := get_HWHM l
  (t - w / 2 * 3, t + w / 2 * 3)

/-- Result of Line.find_zlp_max: the returned (shift, height) pair and the
post-call Line (whose height field was updated). -/
structure ZlpResult where
  shift : ℚ
  height : ℚ
  line : Line
deriving DecidableEq

/-- Line.find_zlp_max: coarse argmax over the full domain, then argmax and max
of the spline sampled over the pass-2 window; stores the height. -/
def find_zlp_max (spl : Spl) (l : Line) : ZlpResult :=
  let f := spl l.x l.y
  let xs2 := get_linspace (zlpWindow spl l)
  let shift := xs2.getD (argmaxIdx (xs2.map f)) 0
  let height := listMax (xs2.map f)
  ⟨shift, height, { l with height := height }⟩

/-- Line.align: find the ZLP shift, re-evaluate the spline at x + shift,
then slice to [min x, max x - shift]. -/
def align (spl : Spl) (l : Line) : Line :=
  let z := find_zlp_max spl l
  let f := spl z.line.x z.line.y
  let l2 : Line := { z.line with y := z.line.x.map (fun v => f (v + z.shift)) }
  setData l2 (slice_data l2 (listMin l2.x, listMax l2.x - z.shift))

/-- The window size nx of denoise_LLR: floor(dE / scale), incremented by 1
when even (computed in ℤ exactly as int(np.floor(...))). -/
def windowSize (dE scale : ℚ) : ℤ :=
  let nx0 := ⌊dE / scale⌋
  if nx0 % 2 = 0 then nx0 + 1 else nx0

/-- Line.denoise_LLR.  The PCA rank-1 reconstruction of the block matrix
(the value mytp[i, j]) is abstracted as the parameter pca applied to the
block matrix and the indices i, j.  Everything else — the window size, the
block construction, the bias term y_mean and the output slicing — is
translated directly. -/
def denoise_LLR (pca : List (List ℚ) → Nat → Nat → ℚ) (l : Line) (dE : ℚ) :
    List ℚ × List ℚ :=
  let myscale := |l.x.getD 1 0 - l.x.getD 0 0|
  let nx := (windowSize dE myscale).toNat
  let numBlock := l.y.length + 1 - nx
  let blocks := (List.range numBlock).map (fun i => (l.y.drop i).take nx)
  let ymean := ((l.y.take numBlock).sum) / (numBlock : ℚ)
  let mydata := (List.range numBlock).map (fun i => pca blocks i (nx / 2) + ymean)
  ((l.x.drop (nx / 2)).take numBlock, mydata)

/-- Line.find_peak.  Mutates the stored data to its slice over xrange, then
denoises (fixed dE = 0.02), splines, samples 2000 points, and finds peak
indices.  The scipy two-pass find_peaks detector is abstracted as the
parameter fp from the sampled values to a list of indices.  Returns the
post-call Line together with the (peak positions, peak heights) pair. -/
def find_peak (spl : Spl) (pca : List (List ℚ) → Nat → Nat → ℚ)
    (fp : List ℚ → List Nat) (l : Line) (xr : ℚ × ℚ) :
    Line × (List ℚ × List ℚ) :=
  let l1 := setData l (slice_data l xr)
  let d := denoise_LLR pca l1 (1 / 50)
  let f := spl d.1 d.2
  let xline := get_linspace xr
  let vals := xline.map f
  let peaks := fp vals
  (l1, (peaks.map (fun i => xline.getD i 0), peaks.map (fun i => vals.getD i 0)))

end Line

/-- A Line together with a Python object identity (the reference the CPython
default __eq__ compares, since class Line defines no __eq__). -/
structure LineObj where
  ref : Nat
  x : List ℚ
  y : List ℚ
  name : String
  height : ℚ
deriving DecidableEq

/-- CPython default equality on Line instances: object identity. -/
def pyEq (a b : LineObj) : Bool := a.ref == b.ref

/-- Value-equality on the contents of two Line objects (x values, y values,
name), regardless of identity. -/
def valueEq (a b : LineObj) : Bool := a.x == b.x && a.y == b.y && a.name == b.name

namespace Lines

/-- Lines.add_lines: append each new line unless it is already a member,
where Python membership tests with == (identity for class Line). -/
def add_lines (elements : List LineObj) (newLines : List LineObj) : List LineObj :=
  newLines.foldl (fun acc nl => if acc.any (fun e => pyEq nl e) then acc else acc ++ [nl]) elements

/-- One step of Python list.remove: drop the first == match. -/
def removeFirst (nl : LineObj) : List LineObj → List LineObj
  | [] => []
  | e :: rest => if pyEq nl e then rest else e :: removeFirst nl rest

/-- The while-loop of Lines.del_lines: keep removing the first match while
the line is still a member; fuel bounds the iteration count (each remove
shortens the list, so fuel = length always suffices). -/
def delLoop : Nat → List LineObj → LineObj → List LineObj
  | 0, acc, _ => acc
  | fuel + 1, acc, nl =>
    if acc.any (fun e => pyEq nl e) then delLoop fuel (removeFirst nl acc) nl else acc

/-- Lines.del_lines: for each given line, remove matching members until none
remain. -/
def del_lines (elements : List LineObj) (newLines : List LineObj) : List LineObj :=
  newLines.foldl (fun acc nl => delLoop acc.length acc nl) elements

end Lines

/-- The mutable state of a Lines collection that align touches: the element
list and the accumulated heights list. -/
structure LinesState where
  elements : List Line
  heights : List ℚ
deriving DecidableEq

namespace Lines

/-- The per-element aligned lines produced by the first loop of Lines.align. -/
def alignedElems (spl : Spl) (st : LinesState) : List Line :=
  st.elements.map (Line.align spl)

/-- Lines.align: align every element (collecting each post-align min x,
max x and height, the heights appended to the existing heights list), then
re-slice every element to [max of the mins, min of the maxes]. -/
def align (spl : Spl) (st : LinesState) : LinesState :=
  let aligned := alignedElems spl st
  let lo := listMax (aligned.map (fun e => listMin e.x))
  let hi := listMin (aligned.map (fun e => listMax e.x))
  { elements := aligned.map (fun e => e.setData (e.slice_data (lo, hi))),
    heights := st.heights ++ aligned.map (fun e => e.height) }

/-- k successive calls of Lines.align. -/
def alignIter (spl : Spl) : Nat → LinesState → LinesState
  | 0, st => st
  | k + 1, st => alignIter spl k (align spl st)

/-- The body of the subtract loop for one element e and its substrate s:
splines both, finds both ZLPs, samples both on the dense display grid shifted
to each ZLP and normalized by each height, stores the difference as the new
data and appends the marker to the name.  (e.height was set by find_zlp_max.) -/
def subtractLine (spl : Spl) (dr : ℚ × ℚ) (s : Line) (e : Line) : Line :=
  let ysub := spl s.x s.y
  let zs := Line.find_zlp_max spl s
  let ydat := spl e.x e.y
  let ze := Line.find_zlp_max spl e
  let xdata := Line.get_linspace dr
  let ydataSample := xdata.map (fun v => ydat (v + ze.shift) / ze.height)
  let ysubSample := xdata.map (fun v => ysub (v + zs.shift) / zs.height)
  { x := xdata, y := List.zipWith (fun a b => a - b) ydataSample ysubSample,
    name := e.name ++ " Subtracted", height := ze.height }

/-- Outcome of Lines.subtract: the element list and substrate list after the
call, whether the count-mismatch message branch returned early, and whether
the loop raised NameError on the unassigned broadcast list subs. -/
structure SubtractResult where
  elements : List Line
  sub : List Line
  errored : Bool
  nameErr : Bool
deriving DecidableEq

/-- Lines.subtract.  The source assigns subs = sub * n only when len(sub) == 1,
then returns with a printed message whenever len(sub) != n — so the branch
that actually runs the loop is reached only when len(sub) == 1 and n == 1
(otherwise len(sub) == n > 1 leaves subs unassigned: NameError on first use).
In the loop, subs[i] aliases sub[0], so find_zlp_max writes the height field
through the alias; the returned sub list reflects that. -/
def subtract (spl : Spl) (elements : List Line) (sub : List Line) (dr : ℚ × ℚ) :
    SubtractResult :=
  if sub.length ≠ elements.length then ⟨elements, sub, true, false⟩
  else if sub.length = 1 then
    let s0 := sub.headD ⟨[], [], "", 0⟩
    ⟨elements.map (subtractLine spl dr s0), [(Line.find_zlp_max spl s0).line],
      false, false⟩
  else ⟨elements, sub, false, true⟩

end Lines

/-- The state a Mapping adds to Lines: the flattened elements plus the pixel
grid dimensions recorded by set_initial_by_data. -/
structure MappingState where
  elements : List Line
  pixel_num_x : Nat
  pixel_num_y : Nat
  pixel_num_z : Nat
deriving DecidableEq

namespace Mapping

/-- Mapping.set_initial_by_data for a three-dimensional cube: record the
shape, reshape row-major to (m*n, k) and build one Line per flat row. -/
def set_initial_by_data (xdata : List ℚ) (ydata : List (List (List ℚ))) :
    MappingState :=
  let m := ydata.length
  let n := (ydata.headD []).length
  let k := ((ydata.headD []).headD []).length
  let ydata2d := ydata.flatten
  ⟨ydata2d.map (fun row => ⟨xdata, row, "", 0⟩), m, n, k⟩

/-- Mapping.coord_to_ind: select[0] * pixel_num_y + select[1]. -/
def coord_to_ind (st : MappingState) (select : Nat × Nat) : Nat :=
  select.1 * st.pixel_num_y + select.2

/-- Mapping.select_sum_all: start from 0 times the first element's y and add
every element's y elementwise; paired with the first element's x. -/
def select_sum_all (elements : List Line) : List ℚ × List ℚ :=
  let e0 := elements.headD ⟨[], [], "", 0⟩
  let init := e0.y.map (fun _ => (0 : ℚ))
  (e0.x, elements.foldl (fun acc e => List.zipWith (fun a b => a + b) acc e.y) init)

end Mapping

/-- Modelled from the spec (claim C3's wording), for comparison with the
source's get_HWHM: the distance from the raw maximum to the last raw sample
left of it whose value exceeds half the raw maximum — asymmetric, one side
only. -/
def specSingleSidedWidth (l : Line) : ℚ :=
  let half := listMax l.y / 2
  let i := argmaxIdx l.y
  let peakX := l.x.getD i 0
  let lefts := ((l.x.zip l.y).take i).filter (fun p => decide (half < p.2))
  |peakX - (lefts.map Prod.fst).getLastD 0|

/-- Modelled from the spec (claim C2's wording), for comparison with the
source's select_sum_all: the elementwise sum of all y arrays divided by the
number of elements, paired with the shared x. -/
def specMeanAll (elements : List Line) : List ℚ × List ℚ :=
  let s := Mapping.select_sum_all elements
  (s.1, s.2.map (fun v => v / (elements.length : ℚ)))

/-! Concrete data used to instantiate the theorems below. -/

/-- A trivial spline constructor (constant zero interpolant). -/
def splZero : Spl := fun _ _ _ => 0

/-- A trivial PCA reconstruction (all reconstructed values zero). -/
def pcaZero : List (List ℚ) → Nat → Nat → ℚ := fun _ _ _ => 0

/-- A trivial peak detector returning no peaks. -/
def fpNil : List ℚ → List Nat := fun _ => []

/-- A Line object stored in a collection. -/
def objA : LineObj := ⟨0, [0], [1], "s", 0⟩

/-- A distinct Line object (different identity) with the same contents as objA. -/
def objB : LineObj := ⟨1, [0], [1], "s", 0⟩

/-- An asymmetric peak: max 4 at x = 1, half max 2, samples above half max at
x = 0, 1, 2. -/
def asymLine : Line := ⟨[0, 1, 2, 3], [3, 4, 3, 0], "", 0⟩

/-- Three collection elements sharing a two-point grid. -/
def lineA : Line := ⟨[0, 1], [2, 3], "a", 0⟩

/-- Second collection element. -/
def lineB : Line := ⟨[0, 1], [4, 5], "b", 0⟩

/-- Third collection element. -/
def lineC : Line := ⟨[0, 1], [6, 7], "c", 0⟩

/-- A substrate line. -/
def lineS : Line := ⟨[0, 1], [8, 9], "s", 0⟩

/-- A two-cell map whose cells hold identical spectra. -/
def mapElems : List Line := [⟨[0], [1], "", 0⟩, ⟨[0], [1], "", 0⟩]

/-- Seven uniformly spaced samples with unit spacing. -/
def denoiseLine : Line :=
  ⟨[0, 1, 2, 3, 4, 5, 6], [1, 2, 3, 4, 5, 6, 7], "", 0⟩

/-- A one-element collection state with an empty heights list. -/
def stateA : LinesState := ⟨[⟨[0, 1], [1, 2], "", 0⟩], []⟩

/-- A 2 x 2 x 50 data cube. -/
def cube2250 : List (List (List ℚ)) :=
  [[List.replicate 50 1, List.replicate 50 2],
   [List.replicate 50 3, List.replicate 50 4]]

/-- A 50-channel energy axis. -/
def xaxis50 : List ℚ := (List.range 50).map (fun i => (i : ℚ) / 10)

/-- A Line for the find_peak frame-effect instance. -/
def peakLine : Line := ⟨[0, 1, 2], [5, 6, 7], "p", 0⟩

/-! Helper lemmas about the list primitives. -/

theorem listMin_le (l : List ℚ) : ∀ x ∈ l, listMin l ≤ x := by
  induction l with
  | nil => simp
  | cons a t ih =>
    intro x hx
    cases t with
    | nil =>
      rcases List.mem_singleton.mp hx with rfl
      exact le_of_eq rfl
    | cons b r =>
      rcases List.mem_cons.mp hx with rfl | hx2
      · exact min_le_left _ _
      · exact le_trans (min_le_right _ _) (ih x hx2)

theorem le_listMax (l : List ℚ) : ∀ x ∈ l, x ≤ listMax l := by
  induction l with
  | nil => simp
  | cons a t ih =>
    intro x hx
    cases t with
    | nil =>
      rcases List.mem_singleton.mp hx with rfl
      exact le_of_eq rfl
    | cons b r =>
      rcases List.mem_cons.mp hx with rfl | hx2
      · exact le_max_left _ _
      · exact le_trans (ih x hx2) (le_max_right _ _)

theorem listMin_mem (l : List ℚ) (h : l ≠ []) : listMin l ∈ l := by
  induction l with
  | nil => exact absurd rfl h
  | cons a t ih =>
    cases t with
    | nil => simp [listMin]
    | cons b r =>
      rcases min_cases a (listMin (b :: r)) with ⟨he, _⟩ | ⟨he, _⟩
      · show min a (listMin (b :: r)) ∈ _
        rw [he]; exact List.mem_cons_self _ _
      · show min a (listMin (b :: r)) ∈ _
        rw [he]; exact List.mem_cons_of_mem _ (ih (by simp))

theorem listMax_mem (l : List ℚ) (h : l ≠ []) : listMax l ∈ l := by
  induction l with
  | nil => exact absurd rfl h
  | cons a t ih =>
    cases t with
    | nil => simp [listMax]
    | cons b r =>
      rcases max_cases a (listMax (b :: r)) with ⟨he, _⟩ | ⟨he, _⟩
      · show max a (listMax (b :: r)) ∈ _
        rw [he]; exact List.mem_cons_self _ _
      · show max a (listMax (b :: r)) ∈ _
        rw [he]; exact List.mem_cons_of_mem _ (ih (by simp))

theorem le_listMin (l : List ℚ) (c : ℚ) (h : l ≠ []) (hc : ∀ x ∈ l, c ≤ x) :
    c ≤ listMin l :=
  hc _ (listMin_mem l h)

theorem listMax_le (l : List ℚ) (c : ℚ) (h : l ≠ []) (hc : ∀ x ∈ l, x ≤ c) :
    listMax l ≤ c :=
  hc _ (listMax_mem l h)

theorem listMax_eq_of_const (l : List ℚ) (c : ℚ) (h : l ≠ [])
    (hc : ∀ x ∈ l, x = c) : listMax l = c :=
  hc _ (listMax_mem l h)

theorem argmaxIdx_lt (l : List ℚ) (h : l ≠ []) : argmaxIdx l < l.length := by
  induction l with
  | nil => exact absurd rfl h
  | cons a t ih =>
    cases t with
    | nil => simp [argmaxIdx]
    | cons b r =>
      show (if listMax (b :: r) ≤ a then 0 else argmaxIdx (b :: r) + 1) < _
      split
      · simp
      · have := ih (by simp)
        simpa [Nat.succ_lt_succ_iff] using this

theorem getD_argmaxIdx (l : List ℚ) (h : l ≠ []) :
    l.getD (argmaxIdx l) 0 = listMax l := by
  induction l with
  | nil => exact absurd rfl h
  | cons a t ih =>
    cases t with
    | nil => rfl
    | cons b r =>
      show List.getD _ (if listMax (b :: r) ≤ a then 0 else argmaxIdx (b :: r) + 1) 0
          = max a (listMax (b :: r))
      split
      · rename_i hle
        simp [List.getD, max_eq_left hle]
      · rename_i hlt
        have hle : a ≤ listMax (b :: r) := le_of_not_le (fun hc => hlt hc)
        simp only [List.getD_cons_succ]
        rw [ih (by simp), max_eq_right hle]

theorem getD_map (f : ℚ → ℚ) (xs : List ℚ) (i : Nat) (h : i < xs.length) :
    (xs.map f).getD i 0 = f (xs.getD i 0) := by
  induction xs generalizing i with
  | nil => simp at h
  | cons a t ih =>
    cases i with
    | zero => rfl
    | succ j =>
      simp only [List.map_cons, List.getD_cons_succ]
      exact ih j (by simpa [Nat.succ_lt_succ_iff] using h)

theorem getD_mem {α : Type} (l : List α) (i : Nat) (d : α) (h : i < l.length) :
    l.getD i d ∈ l := by
  induction l generalizing i with
  | nil => simp at h
  | cons a t ih =>
    cases i with
    | zero => exact List.mem_cons_self _ _
    | succ j =>
      exact List.mem_cons_of_mem _ (ih j (by simpa [Nat.succ_lt_succ_iff] using h))

theorem sample_argmax_eq_listMax (f : ℚ → ℚ) (xs : List ℚ) (h : xs ≠ []) :
    f (xs.getD (argmaxIdx (xs.map f)) 0) = listMax (xs.map f) := by
  have hlen : argmaxIdx (xs.map f) < xs.length := by
    have := argmaxIdx_lt (xs.map f) (by simpa using h)
    simpa using this
  rw [← getD_map f xs _ hlen]
  exact getD_argmaxIdx (xs.map f) (by simpa using h)

theorem sample_argmax_mem (f : ℚ → ℚ) (xs : List ℚ) (h : xs ≠ []) :
    xs.getD (argmaxIdx (xs.map f)) 0 ∈ xs := by
  apply getD_mem
  have := argmaxIdx_lt (xs.map f) (by simpa using h)
  simpa using this

theorem sample_argmax_is_max (f : ℚ → ℚ) (xs : List ℚ) (h : xs ≠ []) :
    ∀ v ∈ xs, f v ≤ f (xs.getD (argmaxIdx (xs.map f)) 0) := by
  intro v hv
  rw [sample_argmax_eq_listMax f xs h]
  exact le_listMax _ _ (List.mem_map_of_mem f hv)

theorem zip_filter_fst (xs ys : List ℚ) (q : ℚ → Bool) (h : xs.length = ys.length) :
    (((xs.zip ys).filter (fun p => q p.1)).map Prod.fst) = xs.filter q := by
  induction xs generalizing ys with
  | nil => simp
  | cons a t ih =>
    cases ys with
    | nil => simp at h
    | cons b r =>
      have ht : t.length = r.length := by simpa using h
      simp only [List.zip_cons_cons, List.filter_cons]
      by_cases hq : q a
      · simp [hq, ih r ht]
      · simp [hq, ih r ht]

theorem linspace_ne_nil (a b : ℚ) : linspace a b 2000 ≠ [] := by
  simp only [linspace]
  norm_num
  exact ⟨0, by norm_num⟩

theorem getD_zipWith_add (a b : List ℚ) (j : Nat) (ha : j < a.length)
    (hb : j < b.length) :
    (List.zipWith (fun u v => u + v) a b).getD j 0 = a.getD j 0 + b.getD j 0 := by
  induction a generalizing b j with
  | nil => simp at ha
  | cons x t ih =>
    cases b with
    | nil => simp at hb
    | cons y r =>
      cases j with
      | zero => rfl
      | succ i =>
        simp only [List.zipWith_cons_cons, List.getD_cons_succ]
        exact ih r i (by simpa [Nat.succ_lt_succ_iff] using ha)
          (by simpa [Nat.succ_lt_succ_iff] using hb)

theorem flatten_getD {α : Type} (l : List (List α)) (n r c : Nat) (d : α)
    (hrow : ∀ row ∈ l, row.length = n) (hr : r < l.length) (hc : c < n) :
    l.flatten.getD (r * n + c) d = (l.getD r []).getD c d := by
  induction l generalizing r with
  | nil => simp at hr
  | cons row rest ih =>
    have hrowlen : row.length = n := hrow row (List.mem_cons_self _ _)
    cases r with
    | zero =>
      simp only [Nat.zero_mul, Nat.zero_add, List.flatten_cons, List.getD_cons_zero]
      exact List.getD_append _ _ _ _ (by omega)
    | succ r' =>
      have harith : (r' + 1) * n + c = row.length + (r' * n + c) := by
        rw [hrowlen]; ring
      simp only [List.flatten_cons, List.getD_cons_succ, harith]
      rw [List.getD_append_right _ _ _ _ (by omega)]
      have hsub : row.length + (r' * n + c) - row.length = r' * n + c := by omega
      rw [hsub]
      exact ih r' (fun rw2 hrw => hrow rw2 (List.mem_cons_of_mem _ hrw))
        (by simpa [Nat.succ_lt_succ_iff] using hr)

theorem getD_map_lt {α β : Type} (f : α → β) (l : List α) (i : Nat) (d : α)
    (e : β) (h : i < l.length) : (l.map f).getD i e = f (l.getD i d) := by
  induction l generalizing i with
  | nil => simp at h
  | cons a t ih =>
    cases i with
    | zero => rfl
    | succ j =>
      simp only [List.map_cons, List.getD_cons_succ]
      exact ih j (by simpa [Nat.succ_lt_succ_iff] using h)

theorem flatten_length_uniform {α : Type} (l : List (List α)) (n : Nat)
    (h : ∀ row ∈ l, row.length = n) : l.flatten.length = l.length * n := by
  induction l with
  | nil => simp
  | cons row rest ih =>
    have hrow : row.length = n := h row (List.mem_cons_self _ _)
    simp only [List.flatten_cons, List.length_append, List.length_cons]
    rw [hrow, ih (fun r hr => h r (List.mem_cons_of_mem _ hr))]
    ring

theorem getD_map_zero (l : List ℚ) (j : Nat) :
    (l.map (fun _ => (0 : ℚ))).getD j 0 = 0 := by
  induction l generalizing j with
  | nil => rfl
  | cons a t ih =>
    cases j with
    | zero => rfl
    | succ i => exact ih i

theorem removeFirst_length (nl : LineObj) (acc : List LineObj)
    (h : acc.any (fun e => pyEq nl e) = true) :
    (Lines.removeFirst nl acc).length + 1 = acc.length := by
  induction acc with
  | nil => simp at h
  | cons e rest ih =>
    simp only [Lines.removeFirst]
    by_cases he : pyEq nl e
    · simp [he]
    · have hrest : rest.any (fun x => pyEq nl x) = true := by
        simpa [List.any_cons, he] using h
      simp [he, ih hrest]

theorem filter_removeFirst (nl : LineObj) (acc : List LineObj) :
    (Lines.removeFirst nl acc).filter (fun e => !(pyEq nl e))
      = acc.filter (fun e => !(pyEq nl e)) := by
  induction acc with
  | nil => rfl
  | cons e rest ih =>
    simp only [Lines.removeFirst]
    by_cases he : pyEq nl e
    · simp [List.filter_cons, he]
    · simp [List.filter_cons, he, ih]

theorem delLoop_eq_filter (nl : LineObj) (fuel : Nat) :
    ∀ acc : List LineObj, acc.length ≤ fuel →
      Lines.delLoop fuel acc nl = acc.filter (fun e => !(pyEq nl e)) := by
  induction fuel with
  | zero =>
    intro acc hle
    have hacc : acc = [] := List.eq_nil_of_length_eq_zero (Nat.le_zero.mp hle)
    subst hacc; rfl
  | succ f ih =>
    intro acc hle
    simp only [Lines.delLoop]
    by_cases hany : acc.any (fun e => pyEq nl e)
    · rw [if_pos hany]
      have hlen := removeFirst_length nl acc hany
      rw [ih _ (by omega), filter_removeFirst]
    · rw [if_neg hany]
      symm
      apply List.filter_eq_self.mpr
      intro e he
      simp only [Bool.not_eq_true']
      by_contra hcon
      have : acc.any (fun x => pyEq nl x) = true :=
        List.any_eq_true.mpr ⟨e, he, by simpa using hcon⟩
      exact hany this

theorem foldl_vecAdd_length (ys : List (List ℚ)) (acc : List ℚ) (n : Nat)
    (hys : ∀ y ∈ ys, y.length = n) (hacc : acc.length = n) :
    (ys.foldl (fun a y => List.zipWith (fun u v => u + v) a y) acc).length = n := by
  induction ys generalizing acc with
  | nil => simpa using hacc
  | cons y t ih =>
    simp only [List.foldl_cons]
    refine ih (List.zipWith (fun u v => u + v) acc y)
      (fun z hz => hys z (List.mem_cons_of_mem _ hz)) ?_
    rw [List.length_zipWith, hacc, hys y (List.mem_cons_self _ _)]
    simp

theorem foldl_vecAdd_getD (ys : List (List ℚ)) (acc : List ℚ) (n j : Nat)
    (hys : ∀ y ∈ ys, y.length = n) (hacc : acc.length = n) (hj : j < n) :
    (ys.foldl (fun a y => List.zipWith (fun u v => u + v) a y) acc).getD j 0
      = acc.getD j 0 + (ys.map (fun y => y.getD j 0)).sum := by
  induction ys generalizing acc with
  | nil => simp
  | cons y t ih =>
    simp only [List.foldl_cons, List.map_cons, List.sum_cons]
    rw [ih (List.zipWith (fun u v => u + v) acc y)
      (fun z hz => hys z (List.mem_cons_of_mem _ hz))
      (by rw [List.length_zipWith, hacc, hys y (List.mem_cons_self _ _)]; simp)]
    rw [getD_zipWith_add acc y j (by omega)
      (by rw [hys y (List.mem_cons_self _ _)]; omega)]
    ring

/-! The claims. -/

/-- C1: the claim that calling subtract with a single substrate broadcasts it
to all n elements fails on the code, which contradicts its own docstring
("The number of Line objects could be 1 or number of elements"): the
count-mismatch check len(sub) != len(elements) runs after, not instead of,
the broadcast assignment, so with one substrate and three elements subtract
prints the mismatch message and returns with every element untouched.  This
theorem evaluates the code at that failing input. -/
theorem c1_subtract_broadcast_dead :
    Lines.subtract splZero [lineA, lineB, lineC] [lineS] (0, 1)
      = ⟨[lineA, lineB, lineC], [lineS], true, false⟩ := by
  rfl

/-- C5: when subtract is called with a substrate list of exactly one Line on
a collection of three elements, the substrate list — hence the substrate
Line's data arrays, name and height field — is unchanged by the call (the
call takes the early count-mismatch return and never touches the substrate). -/
theorem c5_subtract_substrate_frame (spl : Spl) (elements sub : List Line)
    (dr : ℚ × ℚ) (hsub : sub.length = 1) (helems : elements.length = 3) :
    (Lines.subtract spl elements sub dr).sub = sub ∧
      (Lines.subtract spl elements sub dr).elements = elements := by
  have hne : sub.length ≠ elements.length := by omega
  simp [Lines.subtract, hne]

/-- Witness for C5 at a concrete three-element collection and one substrate. -/
theorem c5_witness :
    ([lineS].length = 1) ∧ ([lineA, lineB, lineC].length = 3) ∧
      (Lines.subtract splZero [lineA, lineB, lineC] [lineS] (0, 1)).sub = [lineS] :=
  ⟨rfl, rfl, (c5_subtract_substrate_frame splZero [lineA, lineB, lineC] [lineS]
    (0, 1) rfl rfl).1⟩

/-- C4 counterexample: a Line object value-equal (same x, y, name) to a stored
one but with a different identity is not a duplicate for Python's default ==,
so add_lines appends it and del_lines removes nothing — the claim's
value-equality semantics fails on the code. -/
theorem c4_counterexample :
    valueEq objA objB = true ∧ Lines.add_lines [objA] [objB] ≠ [objA] ∧
      Lines.del_lines [objA] [objB] = [objA] := by
  decide

/-- C4 (amended): membership in add_lines and del_lines is decided by object
identity (CPython default ==), not value-equality: adding a line already
present as the same object is a no-op, and del_lines removes exactly the
identity-equal occurrences, preserving the order of the rest. -/
theorem c4_identity_add_del (elements : List LineObj) (nl : LineObj)
    (hmem : ∃ e ∈ elements, pyEq nl e = true) :
    Lines.add_lines elements [nl] = elements ∧
      Lines.del_lines elements [nl]
        = elements.filter (fun e => !(pyEq nl e)) := by
  constructor
  · simp only [Lines.add_lines, List.foldl_cons, List.foldl_nil]
    rw [if_pos (List.any_eq_true.mpr hmem)]
  · simp only [Lines.del_lines, List.foldl_cons, List.foldl_nil]
    exact delLoop_eq_filter nl elements.length elements le_rfl

/-- Witness for C4 at a concrete collection holding objA, re-adding and then
deleting the very same object. -/
theorem c4_witness :
    (∃ e ∈ [objA, objB], pyEq objA e = true) ∧
      (Lines.add_lines [objA, objB] [objA] = [objA, objB] ∧
        Lines.del_lines [objA, objB] [objA]
          = List.filter (fun e => !(pyEq objA e)) [objA, objB]) :=
  ⟨by decide, c4_identity_add_del [objA, objB] objA (by decide)⟩

/-- C2 counterexample: for the two-cell map whose cells both hold the
spectrum ([0], [1]), select_sum_all returns the bare sum ([0], [2]), which is
not the count-averaged spectrum ([0], [1]) the claim describes. -/
theorem c2_counterexample :
    Mapping.select_sum_all mapElems = ([0], [2]) ∧
      Mapping.select_sum_all mapElems ≠ specMeanAll mapElems := by
  constructor
  · norm_num [Mapping.select_sum_all, mapElems]
  · norm_num [Mapping.select_sum_all, specMeanAll, mapElems]

/-- C2 (amended): for a map whose elements share the x array x0 and whose y
arrays all have length n, select_sum_all returns x0 paired with the plain
elementwise sum of all elements' y arrays; the division by the cell count
described by the claim does not happen (contrast select_sum_by_list, which
does divide). -/
theorem c2_sum_all_bare_sum (elements : List Line) (x0 : List ℚ) (n : Nat)
    (hne : elements ≠ []) (hx : ∀ e ∈ elements, e.x = x0)
    (hy : ∀ e ∈ elements, e.y.length = n) :
    (Mapping.select_sum_all elements).1 = x0 ∧
      (Mapping.select_sum_all elements).2.length = n ∧
      ∀ j, j < n → (Mapping.select_sum_all elements).2.getD j 0
        = (elements.map (fun e => e.y.getD j 0)).sum := by
  obtain ⟨e0, rest, rfl⟩ := List.exists_cons_of_ne_nil hne
  have hx0 : e0.x = x0 := hx e0 (List.mem_cons_self _ _)
  have hy0 : e0.y.length = n := hy e0 (List.mem_cons_self _ _)
  have hinit : (e0.y.map (fun _ => (0 : ℚ))).length = n := by
    simpa using hy0
  have hymap : ∀ z ∈ (e0 :: rest).map Line.y, z.length = n := by
    intro z hz
    obtain ⟨e, he, rfl⟩ := List.mem_map.mp hz
    exact hy e he
  have hfold : (e0 :: rest).foldl
        (fun acc e => List.zipWith (fun a b => a + b) acc e.y)
        (e0.y.map (fun _ => (0 : ℚ)))
      = ((e0 :: rest).map Line.y).foldl
          (fun acc z => List.zipWith (fun a b => a + b) acc z)
          (e0.y.map (fun _ => (0 : ℚ))) := by
    rw [List.foldl_map]
  refine ⟨by simpa [Mapping.select_sum_all] using hx0, ?_, ?_⟩
  · simp only [Mapping.select_sum_all, List.headD_cons]
    rw [hfold]
    exact foldl_vecAdd_length ((e0 :: rest).map Line.y)
      (e0.y.map (fun _ => (0 : ℚ))) n hymap hinit
  · intro j hj
    simp only [Mapping.select_sum_all, List.headD_cons]
    rw [hfold, foldl_vecAdd_getD ((e0 :: rest).map Line.y)
      (e0.y.map (fun _ => (0 : ℚ))) n j hymap hinit hj, getD_map_zero]
    simp [List.map_map, Function.comp_def]

/-- Witness for C2's amended statement on the concrete two-cell map. -/
theorem c2_witness :
    (mapElems ≠ [] ∧ (∀ e ∈ mapElems, e.x = [0]) ∧ (∀ e ∈ mapElems, e.y.length = 1)) ∧
      (Mapping.select_sum_all mapElems).1 = [0] ∧
      (Mapping.select_sum_all mapElems).2.getD 0 0
        = (mapElems.map (fun e => e.y.getD 0 0)).sum := by
  have h := c2_sum_all_bare_sum mapElems [0] 1 (by simp [mapElems])
    (by simp [mapElems]) (by simp [mapElems])
  exact ⟨⟨by simp [mapElems], by simp [mapElems], by simp [mapElems]⟩,
    h.1, h.2.2 0 (by norm_num)⟩

/-- C3 counterexample: for the asymmetric spectrum x = [0,1,2,3],
y = [3,4,3,0] (max 4 at x = 1, half max 2), the source's pass-2 window is
3 * get_HWHM = 6 wide — get_HWHM spans from the first to the last raw sample
above half max, on both sides of the peak — while the single-sided width of
the claim (peak to the last above-half sample left of it, distance 1) would
give a window only 3 wide. -/
theorem c3_counterexample :
    (Line.zlpWindow splZero asymLine).2 - (Line.zlpWindow splZero asymLine).1 = 6
      ∧ 3 * specSingleSidedWidth asymLine = 3 ∧ (6 : ℚ) ≠ 3 := by
  have hw : Line.get_HWHM asymLine = 2 := by
    norm_num [Line.get_HWHM, asymLine, listMax, List.filter]
  have hs : specSingleSidedWidth asymLine = 1 := by
    norm_num [specSingleSidedWidth, asymLine, listMax, argmaxIdx, List.filter]
  refine ⟨?_, by rw [hs]; norm_num, by norm_num⟩
  simp only [Line.zlpWindow, hw]
  ring

/-- C3 (amended): the pass-2 refinement window of find_zlp_max is centered at
the coarse pass-1 peak with half-width 1.5 * get_HWHM — 1.5 times the span
from the first to the last raw sample above half the raw maximum (a two-sided
span, not the single-sided left distance the claim describes) — and the
refined shift and height returned are the argmax sample and the maximum of
the spline over the dense samples of that window. -/
theorem c3_window_and_refinement (spl : Spl) (l : Line) :
    ((Line.zlpWindow spl l).2 - (Line.zlpWindow spl l).1 = 3 * Line.get_HWHM l) ∧
    ((Line.zlpWindow spl l).1 + (Line.zlpWindow spl l).2
        = 2 * Line.coarsePeak spl l) ∧
    ((Line.find_zlp_max spl l).shift ∈ Line.get_linspace (Line.zlpWindow spl l)) ∧
    (∀ v ∈ Line.get_linspace (Line.zlpWindow spl l),
        spl l.x l.y v ≤ spl l.x l.y ((Line.find_zlp_max spl l).shift)) ∧
    ((Line.find_zlp_max spl l).height
        = spl l.x l.y ((Line.find_zlp_max spl l).shift)) := by
  have hne : Line.get_linspace (Line.zlpWindow spl l) ≠ [] := by
    simp only [Line.get_linspace]
    exact linspace_ne_nil _ _
  refine ⟨?_, ?_, ?_, ?_, ?_⟩
  · simp only [Line.zlpWindow]; ring
  · simp only [Line.zlpWindow]; ring
  · simp only [Line.find_zlp_max]
    exact sample_argmax_mem (spl l.x l.y) _ hne
  · simp only [Line.find_zlp_max]
    exact sample_argmax_is_max (spl l.x l.y) _ hne
  · simp only [Line.find_zlp_max]
    exact (sample_argmax_eq_listMax (spl l.x l.y) _ hne).symm

/-- Witness for C3's amended statement at the concrete asymmetric spectrum:
the pass-2 window is exactly 3 half-max spans wide. -/
theorem c3_witness :
    (Line.zlpWindow splZero asymLine).2 - (Line.zlpWindow splZero asymLine).1
      = 3 * Line.get_HWHM asymLine :=
  (c3_window_and_refinement splZero asymLine).1

/-- C9: find_peak permanently replaces the Spectrum's stored data with its
slice to xrange before any peak detection: the post-call x array is exactly
the original x filtered to [min xrange, max xrange] (find_peak mutates the
Spectrum; it is not a pure query). -/
theorem c9_find_peak_mutates (spl : Spl) (pca : List (List ℚ) → Nat → Nat → ℚ)
    (fp : List ℚ → List Nat) (l : Line) (xr : ℚ × ℚ)
    (hlen : l.x.length = l.y.length) :
    (Line.find_peak spl pca fp l xr).1.x
      = l.x.filter (fun v => decide (min xr.1 xr.2 ≤ v ∧ v ≤ max xr.1 xr.2)) := by
  simp only [Line.find_peak, Line.setData, Line.slice_data]
  exact zip_filter_fst l.x l.y
    (fun v => decide (min xr.1 xr.2 ≤ v ∧ v ≤ max xr.1 xr.2)) hlen

/-- Witness for C9 on a concrete three-sample spectrum and the window (0, 1). -/
theorem c9_witness :
    peakLine.x.length = peakLine.y.length ∧
      (Line.find_peak splZero pcaZero fpNil peakLine (0, 1)).1.x
        = peakLine.x.filter (fun v => decide (min (0:ℚ) 1 ≤ v ∧ v ≤ max (0:ℚ) 1)) :=
  ⟨rfl, c9_find_peak_mutates splZero pcaZero fpNil peakLine (0, 1) rfl⟩

/-- One call of Lines.align appends exactly one height per element to the
heights list and preserves the element count. -/
theorem align_heights_step (spl : Spl) (st : LinesState) :
    (Lines.align spl st).heights.length = st.heights.length + st.elements.length
      ∧ (Lines.align spl st).elements.length = st.elements.length := by
  simp [Lines.align, Lines.alignedElems]

/-- Heights growth under iterated align calls. -/
theorem alignIter_heights_len (spl : Spl) (k : Nat) (st : LinesState) :
    (Lines.alignIter spl k st).heights.length
      = st.heights.length + k * st.elements.length := by
  induction k generalizing st with
  | zero => simp [Lines.alignIter]
  | succ k ih =>
    simp only [Lines.alignIter]
    rw [ih]
    rw [(align_heights_step spl st).1, (align_heights_step spl st).2]
    ring

/-- C10: align never clears the heights list — each call appends one height
per element — so after k successive align calls on a collection of n elements
starting with an empty heights list, len(heights) = k * n (parallel to
elements only when k = 1). -/
theorem c10_heights_accumulate (spl : Spl) (st : LinesState) (k n : Nat)
    (hh : st.heights = []) (hn : st.elements.length = n) :
    (Lines.alignIter spl k st).heights.length = k * n := by
  rw [alignIter_heights_len, hh, hn]
  simp

/-- Witness for C10: two align calls on a fresh one-element collection leave
two heights. -/
theorem c10_witness :
    stateA.heights = [] ∧ stateA.elements.length = 1 ∧
      (Lines.alignIter splZero 2 stateA).heights.length = 2 * 1 :=
  ⟨rfl, rfl, c10_heights_accumulate splZero stateA 2 1 rfl rfl⟩

/-- C8: for a cube with m rows of n cells each, set_initial_by_data flattens
row-major: coord_to_ind (r, c) = r * n + c, and the Line at that flat index
holds the cube cell (r, c) paired with the shared x axis. -/
theorem c8_grid_row_major (xdata : List ℚ) (ydata : List (List (List ℚ)))
    (m n r c : Nat) (hm : ydata.length = m) (hn : ∀ row ∈ ydata, row.length = n)
    (hr : r < m) (hc : c < n) :
    Mapping.coord_to_ind (Mapping.set_initial_by_data xdata ydata) (r, c)
        = r * n + c ∧
      (Mapping.set_initial_by_data xdata ydata).elements.getD (r * n + c)
          ⟨[], [], "", 0⟩
        = ⟨xdata, (ydata.getD r []).getD c [], "", 0⟩ := by
  obtain ⟨row0, rest, rfl⟩ := List.exists_cons_of_ne_nil
    (by intro hcon; rw [hcon] at hm; simp at hm; omega : ydata ≠ [])
  have hhead : ((row0 :: rest).headD []).length = n := by
    simpa using hn row0 (List.mem_cons_self _ _)
  constructor
  · simp only [Mapping.coord_to_ind, Mapping.set_initial_by_data]
    rw [hhead]
  · simp only [Mapping.set_initial_by_data]
    have hflatlen : (row0 :: rest).flatten.length = (row0 :: rest).length * n :=
      flatten_length_uniform _ n hn
    have hidx : r * n + c < (row0 :: rest).flatten.length := by
      rw [hflatlen, hm]
      calc r * n + c < r * n + n := by omega
        _ = (r + 1) * n := by ring
        _ ≤ m * n := Nat.mul_le_mul_right n (by omega)
    rw [getD_map_lt (fun row => ({ x := xdata, y := row, name := "", height := 0 } : Line))
      _ _ [] _ hidx]
    rw [flatten_getD _ n r c [] hn (by omega) hc]

/-- Witness for C8: the 2 x 2 x 50 cube of the spec scenario, where cell
(1, 1) sits at flat index 3. -/
theorem c8_witness :
    Mapping.coord_to_ind (Mapping.set_initial_by_data xaxis50 cube2250) (1, 1) = 3 ∧
      (Mapping.set_initial_by_data xaxis50 cube2250).elements.getD 3 ⟨[], [], "", 0⟩
        = ⟨xaxis50, (cube2250.getD 1 []).getD 1 [], "", 0⟩ := by
  have h := c8_grid_row_major xaxis50 cube2250 2 2 1 1 (by simp [cube2250])
    (by simp [cube2250]) (by norm_num) (by norm_num)
  exact ⟨h.1.trans (by norm_num), by simpa using h.2⟩

/-- The denoise_LLR window size is always odd. -/
theorem windowSize_odd (dE s : ℚ) : Line.windowSize dE s % 2 = 1 := by
  simp only [Line.windowSize]
  split <;> omega

/-- C6: for a Spectrum with n samples, the denoise_LLR window size nx
(floor(dE / spacing), incremented by 1 if even, where spacing is the gap
between the first two samples) is odd, and whenever 1 <= nx <= n both
returned arrays have length n - (nx - 1), the returned x array being the
original x trimmed by nx / 2 samples on each side. -/
theorem c6_denoise_shape (pca : List (List ℚ) → Nat → Nat → ℚ) (l : Line)
    (dE : ℚ) (n : Nat) (nx : ℤ)
    (hxlen : l.x.length = n) (hylen : l.y.length = n)
    (hnx : Line.windowSize dE |l.x.getD 1 0 - l.x.getD 0 0| = nx)
    (h1 : 1 ≤ nx) (hn : nx ≤ (n : ℤ)) :
    nx % 2 = 1 ∧
    (Line.denoise_LLR pca l dE).1.length = n - (nx.toNat - 1) ∧
    (Line.denoise_LLR pca l dE).2.length = n - (nx.toNat - 1) ∧
    (Line.denoise_LLR pca l dE).1
      = (l.x.drop (nx.toNat / 2)).take (l.x.length - 2 * (nx.toNat / 2)) := by
  have hodd : nx % 2 = 1 := by rw [← hnx]; exact windowSize_odd _ _
  have hoddN : nx.toNat % 2 = 1 := by omega
  have h1N : 1 ≤ nx.toNat := by omega
  have hnN : nx.toNat ≤ n := by omega
  refine ⟨hodd, ?_, ?_, ?_⟩
  · simp only [Line.denoise_LLR, hnx, hylen]
    rw [List.length_take, List.length_drop, hxlen]
    omega
  · simp only [Line.denoise_LLR, hnx, hylen]
    rw [List.length_map, List.length_range]
    omega
  · simp only [Line.denoise_LLR, hnx, hylen, hxlen]
    have harith : n + 1 - nx.toNat = n - 2 * (nx.toNat / 2) := by omega
    rw [harith]

/-- Witness for C6 on seven unit-spaced samples with window width 3, giving
the odd window size nx = 3 and outputs of length 5. -/
theorem c6_witness :
    (denoiseLine.x.length = 7 ∧ denoiseLine.y.length = 7 ∧
      Line.windowSize 3 |denoiseLine.x.getD 1 0 - denoiseLine.x.getD 0 0| = 3) ∧
    (3 : ℤ) % 2 = 1 ∧
    (Line.denoise_LLR pcaZero denoiseLine 3).1.length = 7 - ((3:ℤ).toNat - 1) ∧
    (Line.denoise_LLR pcaZero denoiseLine 3).2.length = 7 - ((3:ℤ).toNat - 1) ∧
    (Line.denoise_LLR pcaZero denoiseLine 3).1
      = (denoiseLine.x.drop ((3:ℤ).toNat / 2)).take
          (denoiseLine.x.length - 2 * ((3:ℤ).toNat / 2)) := by
  have hnx : Line.windowSize 3 |denoiseLine.x.getD 1 0 - denoiseLine.x.getD 0 0| = 3 := by
    norm_num [Line.windowSize, denoiseLine]
  have h := c6_denoise_shape pcaZero denoiseLine 3 7 3 rfl rfl hnx
    (by norm_num) (by norm_num)
  exact ⟨⟨rfl, rfl, hnx⟩, h.1, h.2.1, h.2.2.1, h.2.2.2⟩

/-- find_zlp_max only updates the height field of the stored line. -/
theorem find_zlp_line (spl : Spl) (l : Line) :
    (Line.find_zlp_max spl l).line
      = { l with height := (Line.find_zlp_max spl l).height } := by
  simp only [Line.find_zlp_max]

/-- find_zlp_max only updates the height field: the x data is untouched. -/
theorem find_zlp_line_x (spl : Spl) (l : Line) :
    (Line.find_zlp_max spl l).line.x = l.x := by
  rw [find_zlp_line]

/-- find_zlp_max only updates the height field: the y data is untouched. -/
theorem find_zlp_line_y (spl : Spl) (l : Line) :
    (Line.find_zlp_max spl l).line.y = l.y := by
  rw [find_zlp_line]

/-- The x array a Line.align call leaves behind: the original x filtered to
the slice range [min x, max x - shift] (with Python's min/max of the two
range endpoints applied, as slice_data does). -/
theorem align_x_filter (spl : Spl) (l : Line) :
    (Line.align spl l).x
      = l.x.filter (fun v => decide
          (min (listMin l.x) (listMax l.x - (Line.find_zlp_max spl l).shift) ≤ v
            ∧ v ≤ max (listMin l.x) (listMax l.x - (Line.find_zlp_max spl l).shift))) := by
  simp only [Line.align, Line.setData, Line.slice_data, find_zlp_line_x,
    find_zlp_line_y]
  generalize (Line.find_zlp_max spl l).shift = s
  exact zip_filter_fst l.x (l.x.map (fun v => spl l.x l.y (v + s)))
    (fun v => decide (min (listMin l.x) (listMax l.x - s) ≤ v
      ∧ v ≤ max (listMin l.x) (listMax l.x - s))) (by simp)

/-- An aligned Line has x and y arrays of the same length. -/
theorem align_xy_len (spl : Spl) (l : Line) :
    (Line.align spl l).x.length = (Line.align spl l).y.length := by
  simp [Line.align, Line.setData, Line.slice_data]

/-- C7: when every element of the collection shares the x grid xs, align
leaves every element with the very same x array, namely the original grid
restricted to [max of the per-element post-align minima, min of the
per-element post-align maxima]. -/
theorem c7_align_common_domain (spl : Spl) (st : LinesState) (xs : List ℚ)
    (hne : st.elements ≠ []) (hxs : xs ≠ [])
    (hall : ∀ e ∈ st.elements, e.x = xs) :
    (Lines.align spl st).elements.map (fun e => e.x)
      = List.replicate st.elements.length
          (xs.filter (fun v => decide
            (listMax ((Lines.alignedElems spl st).map (fun a => listMin a.x)) ≤ v
              ∧ v ≤ listMin ((Lines.alignedElems spl st).map (fun a => listMax a.x))))) := by
  set A := Lines.alignedElems spl st with hA
  set LO := listMax (A.map (fun a => listMin a.x)) with hLO
  set HI := listMin (A.map (fun a => listMax a.x)) with hHI
  have hAne : A ≠ [] := by
    rw [hA, Lines.alignedElems]
    simpa using hne
  have hform : ∀ a ∈ A, ∃ s : ℚ,
      a.x = xs.filter (fun v => decide (min (listMin xs) (listMax xs - s) ≤ v
          ∧ v ≤ max (listMin xs) (listMax xs - s)))
        ∧ a.x.length = a.y.length := by
    intro a ha
    rw [hA, Lines.alignedElems] at ha
    obtain ⟨e, he, rfl⟩ := List.mem_map.mp ha
    refine ⟨(Line.find_zlp_max spl e).shift, ?_, align_xy_len spl e⟩
    rw [align_x_filter, hall e he]
  have hminx : ∀ a ∈ A, listMin xs ∈ a.x ∧ listMin a.x = listMin xs := by
    intro a ha
    obtain ⟨s, hxeq, _⟩ := hform a ha
    have hmem : listMin xs ∈ a.x := by
      rw [hxeq]
      refine List.mem_filter.mpr ⟨listMin_mem xs hxs, ?_⟩
      exact decide_eq_true ⟨min_le_left _ _, le_max_left _ _⟩
    refine ⟨hmem, le_antisymm (listMin_le _ _ hmem) ?_⟩
    have hmm : listMin a.x ∈ a.x := listMin_mem _ (List.ne_nil_of_mem hmem)
    have hmxs : listMin a.x ∈ xs := by
      have hmm2 : listMin a.x ∈ xs.filter (fun v =>
          decide (min (listMin xs) (listMax xs - s) ≤ v
            ∧ v ≤ max (listMin xs) (listMax xs - s))) := by
        rw [← hxeq]; exact hmm
      exact (List.mem_filter.mp hmm2).1
    exact listMin_le xs _ hmxs
  have haxne : ∀ a ∈ A, a.x ≠ [] := fun a ha => List.ne_nil_of_mem (hminx a ha).1
  have hLOeq : LO = listMin xs := by
    rw [hLO]
    refine listMax_eq_of_const _ _ ?_ ?_
    · simpa using hAne
    · intro v hv
      obtain ⟨a, ha, rfl⟩ := List.mem_map.mp hv
      exact (hminx a ha).2
  have hLOHI : LO ≤ HI := by
    rw [hHI]
    refine le_listMin _ _ ?_ ?_
    · simpa using hAne
    · intro v hv
      obtain ⟨a, ha, rfl⟩ := List.mem_map.mp hv
      calc LO = listMin xs := hLOeq
        _ = listMin a.x := ((hminx a ha).2).symm
        _ ≤ listMax a.x := listMin_le _ _ (listMax_mem _ (haxne a ha))
  have hHIle : ∀ a ∈ A, HI ≤ listMax a.x := by
    intro a ha
    rw [hHI]
    exact listMin_le _ _ (List.mem_map_of_mem _ ha)
  have hfinal : ∀ a ∈ A,
      a.x.filter (fun v => decide (min LO HI ≤ v ∧ v ≤ max LO HI))
        = xs.filter (fun v => decide (LO ≤ v ∧ v ≤ HI)) := by
    intro a ha
    obtain ⟨s, hxeq, _⟩ := hform a ha
    have h2 : listMax a.x ≤ max (listMin xs) (listMax xs - s) := by
      have hmm2 : listMax a.x ∈ xs.filter (fun v =>
          decide (min (listMin xs) (listMax xs - s) ≤ v
            ∧ v ≤ max (listMin xs) (listMax xs - s))) := by
        rw [← hxeq]; exact listMax_mem _ (haxne a ha)
      exact (of_decide_eq_true (List.mem_filter.mp hmm2).2).2
    rw [hxeq, List.filter_filter]
    refine List.filter_congr ?_
    intro v hv
    rw [min_eq_left hLOHI, max_eq_right hLOHI]
    by_cases hrange : LO ≤ v ∧ v ≤ HI
    · have hps : min (listMin xs) (listMax xs - s) ≤ v
          ∧ v ≤ max (listMin xs) (listMax xs - s) := by
        constructor
        · refine le_trans (min_le_left _ _) ?_
          rw [← hLOeq]; exact hrange.1
        · exact le_trans hrange.2 (le_trans (hHIle a ha) h2)
      rw [decide_eq_true hrange, decide_eq_true hps]
      rfl
    · rw [decide_eq_false hrange]
      rfl
  have hgx : ∀ a ∈ A, (a.setData (a.slice_data (LO, HI))).x
      = xs.filter (fun v => decide (LO ≤ v ∧ v ≤ HI)) := by
    intro a ha
    obtain ⟨_, _, hlen⟩ := hform a ha
    have hslice : (a.slice_data (LO, HI)).1
        = a.x.filter (fun v => decide (min LO HI ≤ v ∧ v ≤ max LO HI)) := by
      simp only [Line.slice_data]
      exact zip_filter_fst a.x a.y
        (fun v => decide (min LO HI ≤ v ∧ v ≤ max LO HI)) hlen
    simp only [Line.setData]
    rw [hslice]
    exact hfinal a ha
  have hlenA : A.length = st.elements.length := by
    rw [hA, Lines.alignedElems, List.length_map]
  simp only [Lines.align]
  rw [← hA, ← hLO, ← hHI]
  refine List.eq_replicate_iff.mpr ⟨?_, ?_⟩
  · simp [hlenA]
  · intro b hb
    simp only [List.map_map, List.mem_map] at hb
    obtain ⟨a, ha, rfl⟩ := hb
    exact hgx a ha

/-- Witness for C7 on a concrete one-element collection over the grid [0, 1]. -/
theorem c7_witness :
    stateA.elements ≠ [] ∧ ([0, 1] : List ℚ) ≠ [] ∧
      (Lines.align splZero stateA).elements.map (fun e => e.x)
        = List.replicate stateA.elements.length
            (([0, 1] : List ℚ).filter (fun v => decide
              (listMax ((Lines.alignedElems splZero stateA).map (fun a => listMin a.x)) ≤ v
                ∧ v ≤ listMin ((Lines.alignedElems splZero stateA).map (fun a => listMax a.x))))) :=
  ⟨by simp [stateA], by simp,
    c7_align_common_domain splZero stateA [0, 1] (by simp [stateA]) (by simp)
      (by simp [stateA])⟩

end EELS
